import Mathlib

/-!
Verification of the QM/MM coupling engine of `src/gromacs/mdlib/qmmm.cpp`
(GROMACS 2020-era source): atom classification (`qmmmAtomIndices`,
`removeQmmmAtomCharges`, `init_QMMMrec`), the per-step environment update
(`update_QMMMrec`), and the energy/force combiner (`calculate_QMMM`).

Modelling conventions (shallow embedding):
* `real` values (energies, charges, force components) are modelled as `ℚ`;
  all claims checked here are structural (value propagation and aggregation),
  not floating-point numerics.
* an `rvec` is `Vec3 := Fin 3 → ℚ`; the `for (j = 0; j < DIM; j++)` loops of
  the source act componentwise, which is pointwise `Pi` arithmetic here.
* a periodic-shift index (`XYZ2IS`/`IS2X`-encoded `int` in `ishift.h`, which
  is outside `src/`) is modelled as the decoded translation triple
  `Ishift := ℤ × ℤ × ℤ`; the source's decode-add-encode composition of two
  in-range shifts is componentwise addition of the triples, and
  `XYZ2IS(0,0,0)` is `(0,0,0)`.
* `pbc_dx_aiuc` (pbcutil, outside `src/`) is an opaque parameter
  `pbcDx : Nat → Nat → Ishift` giving, for a fixed step's coordinates and
  box, the minimum-image shift of the second atom relative to the first;
  `fr->shift_vec` is likewise an opaque `shiftVec : Ishift → Vec3`.
* the external QM solvers behind `call_QMroutine` are one opaque engine
  `QMEngine`, returning an energy, per-atom gradients and per-atom shift
  gradients (the source passes preallocated zeroed arrays, so missing
  entries read as `0`, matching `List.getD _ _ 0`).
-/

/-- Decoded periodic-shift translation (the `ivec`/`XYZ2IS` shift index of
`ishift.h`, represented as the translation triple it encodes). -/
abbrev Ishift : Type := ℤ × ℤ × ℤ

/-- Componentwise rational 3-vector standing in for `rvec`. -/
abbrev Vec3 : Type := Fin 3 → ℚ

/-- The `t_j_particle` struct of qmmm.cpp: an atom index paired with the
periodic shift recorded for it. -/
structure JPart where
  j : Nat
  shift : Ishift
  deriving DecidableEq

instance : Inhabited JPart := ⟨⟨0, 0⟩⟩

/-- The fields of `t_QMrec` used by the routines under verification.
Surface-hopping bookkeeping (`bSH`, `CAS*`, `SA*`) is opaque to this core
and omitted; `nrQMatoms` is `indexQM.length`. -/
structure QMrec where
  indexQM : List Nat
  atomicnumberQM : List Nat
  shiftQM : List Ishift
  xQM : List Vec3
  QMmethod : Nat
  QMbasis : Nat
  QMcharge : Int
  multiplicity : Nat
  nelectrons : Int

instance : Inhabited QMrec :=
  ⟨{ indexQM := [], atomicnumberQM := [], shiftQM := [], xQM := [],
     QMmethod := 0, QMbasis := 0, QMcharge := 0, multiplicity := 0, nelectrons := 0 }⟩

/-- The fields of `t_MMrec`. `nrMMatoms` is kept as an explicit field
because `init_QMMMrec` sets the count without populating the arrays. -/
structure MMrec where
  nrMMatoms : Nat
  indexMM : List Nat
  shiftMM : List Ishift
  MMcharges : List ℚ
  xMM : List Vec3
  scalefactor : ℚ

instance : Inhabited MMrec :=
  ⟨{ nrMMatoms := 0, indexMM := [], shiftMM := [], MMcharges := [], xMM := [],
     scalefactor := 1 }⟩

/-- The QM/MM coupling scheme (`eQMMMschemenormal` / `eQMMMschemeoniom`). -/
inductive Scheme where
  | normal
  | oniom
  deriving DecidableEq

/-- The fields of `t_QMMMrec` used here. -/
structure QMMMrec where
  QMMMscheme : Scheme
  nrQMlayers : Nat
  qm : List QMrec
  mm : MMrec

/-- One opaque QM backend call (`call_QMroutine`): returns the energy, the
per-atom gradients and the per-atom shift gradients for the atoms passed. -/
abbrev QMEngine : Type := QMrec → MMrec → ℚ × List Vec3 × List Vec3

/-- Sequential scatter-subtract: `f[i] -= v` for each listed `(i, v)` pair,
in list order (the accumulation loops of `calculate_QMMM`). -/
def scatSub {ι : Type} [DecidableEq ι] (f : ι → Vec3) : List (ι × Vec3) → ι → Vec3
  | [] => f
  | p :: rest => scatSub (Function.update f p.1 (f p.1 - p.2)) rest

/-- Sequential scatter-add: `f[i] += v` for each listed `(i, v)` pair. -/
def scatAdd {ι : Type} [DecidableEq ι] (f : ι → Vec3) : List (ι × Vec3) → ι → Vec3
  | [] => f
  | p :: rest => scatAdd (Function.update f p.1 (f p.1 + p.2)) rest

theorem scatSub_apply {ι : Type} [DecidableEq ι] :
    ∀ (l : List (ι × Vec3)) (f : ι → Vec3) (a : ι),
      scatSub f l a = f a - ((l.filter (fun p => decide (p.1 = a))).map Prod.snd).sum := by
  intro l
  induction l with
  | nil => intro f a; simp [scatSub]
  | cons p rest ih =>
    intro f a
    show scatSub (Function.update f p.1 (f p.1 - p.2)) rest a = _
    rw [ih]
    by_cases h : p.1 = a
    · subst h
      rw [Function.update_same]
      simp [List.filter_cons, sub_sub]
    · rw [Function.update_noteq (fun hc => h hc.symm)]
      simp [List.filter_cons, h]

theorem scatAdd_apply {ι : Type} [DecidableEq ι] :
    ∀ (l : List (ι × Vec3)) (f : ι → Vec3) (a : ι),
      scatAdd f l a = f a + ((l.filter (fun p => decide (p.1 = a))).map Prod.snd).sum := by
  intro l
  induction l with
  | nil => intro f a; simp [scatAdd]
  | cons p rest ih =>
    intro f a
    show scatAdd (Function.update f p.1 (f p.1 + p.2)) rest a = _
    rw [ih]
    by_cases h : p.1 = a
    · subst h
      rw [Function.update_same]
      simp [List.filter_cons, add_assoc]
    · rw [Function.update_noteq (fun hc => h hc.symm)]
      simp [List.filter_cons, h]

/-- Construction of `qm2` in the multi-layer branch of `calculate_QMMM`
(lines 886-902): `copy_QMrec` of the enclosing (lower-theory) layer `base`,
then `nrQMatoms`, coordinates, indices, atomic numbers, shifts and
`QMcharge` are overwritten from the inner layer `qm`, leaving `base`'s
method/basis/multiplicity/electron fields. -/
def mkLowLayer (qm base : QMrec) : QMrec :=
  { base with
    indexQM := qm.indexQM
    atomicnumberQM := qm.atomicnumberQM
    shiftQM := qm.shiftQM
    xQM := qm.xQM
    QMcharge := qm.QMcharge }

/-- The `(index, gradient)` pairs accumulated by the normal-scheme branch of
`calculate_QMMM`: the QM atoms take entries `0..nrQMatoms-1` of the returned
gradient array, the MM atoms the following `nrMMatoms` entries. -/
def normalForcePairs (eng : QMEngine) (qr : QMMMrec) : List (Nat × Vec3) :=
  let qm := qr.qm.getD 0 default
  let forces := (eng qm qr.mm).2.1
  let n := qm.indexQM.length
  (List.range n).map (fun i => (qm.indexQM.getD i 0, forces.getD i 0))
    ++ (List.range qr.mm.nrMMatoms).map
        (fun i => (qr.mm.indexMM.getD i 0, forces.getD (n + i) 0))

/-- The `(shift, shift-gradient)` pairs accumulated by the normal-scheme
branch of `calculate_QMMM`. -/
def normalShiftPairs (eng : QMEngine) (qr : QMMMrec) : List (Ishift × Vec3) :=
  let qm := qr.qm.getD 0 default
  let fshift := (eng qm qr.mm).2.2
  let n := qm.indexQM.length
  (List.range n).map (fun i => (qm.shiftQM.getD i 0, fshift.getD i 0))
    ++ (List.range qr.mm.nrMMatoms).map
        (fun i => (qr.mm.shiftMM.getD i 0, fshift.getD (n + i) 0))

/-- The multi-layer ONIOM loop of `calculate_QMMM` (lines 884-928), with its
loop counter modelled exactly as the C code runs it: the inner force-scatter
loop reuses the variable `i`, so after one iteration over layer `i` the
counter resumes from `nrQMatoms(layer i) + 1`.  Because that can cycle, the
recursion carries fuel and returns `none` where the C loop would not
terminate. -/
def oniomLoop (eng : QMEngine) (qr : QMMMrec) :
    Nat → Nat → ℚ × (Nat → Vec3) × (Ishift → Vec3) →
      Option (ℚ × (Nat → Vec3) × (Ishift → Vec3))
  | 0, _, _ => none
  | fuel + 1, i, st =>
    if i + 1 < qr.nrQMlayers then
      let qm := qr.qm.getD i default
      let qm2 := mkLowLayer qm (qr.qm.getD (i + 1) default)
      let r1 := eng qm qr.mm
      let r2 := eng qm2 qr.mm
      let n := qm.indexQM.length
      let pf := (List.range n).map
        (fun k => (qm.indexQM.getD k 0, r1.2.1.getD k 0 - r2.2.1.getD k 0))
      let ps := (List.range n).map
        (fun k => (qm.shiftQM.getD k 0, r1.2.2.getD k 0 - r2.2.2.getD k 0))
      oniomLoop eng qr fuel (n + 1)
        (st.1 + r1.1 - r2.1, scatSub st.2.1 pf, scatAdd st.2.2 ps)
    else
      let qm := qr.qm.getD (qr.nrQMlayers - 1) default
      let r := eng qm qr.mm
      let n := qm.indexQM.length
      let pf := (List.range n).map (fun k => (qm.indexQM.getD k 0, r.2.1.getD k 0))
      let ps := (List.range n).map (fun k => (qm.shiftQM.getD k 0, r.2.2.getD k 0))
      some (st.1 + r.1, scatSub st.2.1 pf, scatAdd st.2.2 ps)

/-- The combiner `calculate_QMMM` (lines 830-949): the normal / one-layer
branch makes a single engine call and scatters its gradients (subtracted
into the force array, added into the shift-force array); the multi-layer
ONIOM branch runs `oniomLoop`.  Returns the energy together with the updated
force and shift-force arrays. -/
def calculate_QMMM (eng : QMEngine) (qr : QMMMrec) (fMM : Nat → Vec3)
    (fshiftMM : Ishift → Vec3) : Option (ℚ × (Nat → Vec3) × (Ishift → Vec3)) :=
  if qr.QMMMscheme = Scheme.normal ∨ qr.nrQMlayers = 1 then
    some ((eng (qr.qm.getD 0 default) qr.mm).1,
          scatSub fMM (normalForcePairs eng qr),
          scatAdd fshiftMM (normalShiftPairs eng qr))
  else
    oniomLoop eng qr (qr.nrQMlayers + 1) 0 (0, fMM, fshiftMM)

/-- Follows the spec's words, for comparison with `calculate_QMMM`: the
telescoping multi-layer ONIOM energy
`sum over i = 0..N-2 of (E_high(layer i) - E_low(layer i at layer i+1's
theory)) + E(outermost layer at its own theory)`. -/
def oniomSpecEnergy (eng : QMEngine) (qr : QMMMrec) : ℚ :=
  ((List.range (qr.nrQMlayers - 1)).map (fun i =>
      let qm := qr.qm.getD i default
      let low := mkLowLayer qm (qr.qm.getD (i + 1) default)
      (eng qm qr.mm).1 - (eng low qr.mm).1)).sum
    + (eng (qr.qm.getD (qr.nrQMlayers - 1) default) qr.mm).1

/-- A deterministic stub engine assigning each (layer, theory) pair the
energy `100 * method + sum of the layer's atom indices`, with no gradients. -/
def stubEngine : QMEngine := fun qm _ =>
  (100 * (qm.QMmethod : ℚ) + ((qm.indexQM.map (fun a => (a : ℚ))).sum), [], [])

/-- A one-atom ONIOM layer at the given level of theory. -/
def stubLayer (m : Nat) (idx : List Nat) : QMrec :=
  { indexQM := idx, atomicnumberQM := [1], shiftQM := [0], xQM := [0],
    QMmethod := m, QMbasis := 0, QMcharge := 0, multiplicity := 1, nelectrons := 1 }

/-- A three-layer ONIOM run: layers `[0]`, `[1]`, `[2]` at methods 0, 1, 2. -/
def qrThreeLayer : QMMMrec :=
  { QMMMscheme := Scheme.oniom, nrQMlayers := 3,
    qm := [stubLayer 0 [0], stubLayer 1 [1], stubLayer 2 [2]],
    mm := default }

/-- Claim C1, divergence witness for the code bug: on a three-layer ONIOM run
with the deterministic stub engine, `calculate_QMMM` returns 102, skipping
the middle layer's difference term, while the documented telescoping formula
(the in-code comment at lines 915-918 and `oniomSpecEnergy`) yields 2: the
inner gradient-scatter loop reuses the layer counter `i`, so after the first
layer the counter jumps past all remaining non-final layers. -/
theorem calculate_QMMM_oniom_skips_middle_layer :
    (calculate_QMMM stubEngine qrThreeLayer (fun _ => 0) (fun _ => 0)).map
        (fun st => st.1) = some 102
      ∧ oniomSpecEnergy stubEngine qrThreeLayer = 2
      ∧ (102 : ℚ) ≠ 2 := by
  refine ⟨?_, ?_, by norm_num⟩
  · have h1 : ¬(qrThreeLayer.QMMMscheme = Scheme.normal ∨ qrThreeLayer.nrQMlayers = 1) := by
      simp [qrThreeLayer]
    rw [calculate_QMMM, if_neg h1]
    show (oniomLoop stubEngine qrThreeLayer (3 + 1) 0 (0, _, _)).map (fun st => st.1) = _
    rw [oniomLoop]
    norm_num [qrThreeLayer, stubEngine, stubLayer, mkLowLayer]
    rw [oniomLoop]
    norm_num [qrThreeLayer, stubEngine, stubLayer, mkLowLayer]
  · show ((List.range 2).map _).sum + _ = 2
    simp only [List.range_succ, List.range_zero, List.map_cons, List.map_nil,
      List.map_append, List.sum_append, List.nil_append, List.sum_cons, List.sum_nil]
    norm_num [qrThreeLayer, stubEngine, stubLayer, mkLowLayer]

/-- Claim C2: under the Normal scheme, `calculate_QMMM` returns exactly the
energy of the single engine call made with the QM layer and the full MM
environment, the per-atom gradient entries are subtracted from the classical
force array at each atom's global index, and the per-atom shift entries are
added into the shift-force array at each atom's shift index (coinciding
indices accumulate in pass order). -/
theorem calculate_QMMM_normal_single_call (eng : QMEngine) (qr : QMMMrec)
    (fMM : Nat → Vec3) (fshiftMM : Ishift → Vec3)
    (h : qr.QMMMscheme = Scheme.normal) :
    calculate_QMMM eng qr fMM fshiftMM =
      some ((eng (qr.qm.getD 0 default) qr.mm).1,
        fun a => fMM a -
          (((normalForcePairs eng qr).filter (fun p => decide (p.1 = a))).map Prod.snd).sum,
        fun s => fshiftMM s +
          (((normalShiftPairs eng qr).filter (fun p => decide (p.1 = s))).map Prod.snd).sum) := by
  rw [calculate_QMMM, if_pos (Or.inl h)]
  refine congrArg some ?_
  refine congrArg₂ Prod.mk rfl (congrArg₂ Prod.mk ?_ ?_)
  · funext a; exact scatSub_apply _ _ _
  · funext s; exact scatAdd_apply _ _ _

/-- Witness for C2 at a concrete normal-scheme record. -/
def qrNormalOne : QMMMrec :=
  { QMMMscheme := Scheme.normal, nrQMlayers := 1,
    qm := [stubLayer 0 [0]],
    mm := { nrMMatoms := 1, indexMM := [5], shiftMM := [0], MMcharges := [1],
            xMM := [0], scalefactor := 1 } }

theorem calculate_QMMM_normal_single_call_witness :
    qrNormalOne.QMMMscheme = Scheme.normal ∧
      calculate_QMMM stubEngine qrNormalOne (fun _ => 0) (fun _ => 0) =
        some ((stubEngine (qrNormalOne.qm.getD 0 default) qrNormalOne.mm).1,
          fun a => (fun _ => (0 : Vec3)) a -
            (((normalForcePairs stubEngine qrNormalOne).filter
                (fun p => decide (p.1 = a))).map Prod.snd).sum,
          fun s => (fun _ => (0 : Vec3)) s +
            (((normalShiftPairs stubEngine qrNormalOne).filter
                (fun p => decide (p.1 = s))).map Prod.snd).sum) :=
  ⟨rfl, calculate_QMMM_normal_single_call stubEngine qrNormalOne _ _ rfl⟩

/-- The `t_mdatoms` fields consumed by `update_QMMMrec`: the QM flag and the
two charge states (`chargeB` is null when no free-energy B state exists). -/
structure Mdatoms where
  nr : Nat
  bQM : Nat → Bool
  chargeA : Nat → ℚ
  chargeB : Option (Nat → ℚ)

/-- The `t_nblist` fields consumed by `update_QMMMrec`: i-particle atom
indices, the list's per-row recorded shifts, and the `jindex`-delimited
j-particle index array. -/
structure NbList where
  iinr : List Nat
  shift : List Ishift
  jindex : List Nat
  jjnr : List Nat

/-- Lines 637-649 of `update_QMMMrec`: the QM i-particle pass.  Row 0 gets
the zero shift; every later row `i` gets `pbc_dx_aiuc(x[iinr[0]], x[iinr[i]])`,
the minimum-image translation relative to the first i-particle (the list's
own recorded row shift is not stored here). -/
def qmIParticles (nbl : NbList) (pbcDx : Nat → Nat → Ishift) : List JPart :=
  (List.range nbl.iinr.length).map (fun i =>
    ⟨nbl.iinr.getD i 0,
      if i = 0 then 0 else pbcDx (nbl.iinr.getD 0 0) (nbl.iinr.getD i 0)⟩)

/-- Lines 659-662: the absolute shift `is` given to row `i`'s j-particles,
composing the neighbor list's recorded row shift with the i-particle's
minimum-image shift (decode-add-encode in the source, triple addition here). -/
def rowShift (nbl : NbList) (pbcDx : Nat → Nat → Ishift) (i : Nat) : Ishift :=
  nbl.shift.getD i 0 + ((qmIParticles nbl pbcDx).getD i default).shift

/-- The j-particle atom indices of neighbor-list row `i`
(`jjnr[jindex[i] .. jindex[i+1])`). -/
def jjnrSlice (nbl : NbList) (i : Nat) : List Nat :=
  (List.range' (nbl.jindex.getD i 0)
      (nbl.jindex.getD (i + 1) 0 - nbl.jindex.getD i 0)).map
    (fun jj => nbl.jjnr.getD jj 0)

/-- Lines 663-674: the raw MM candidate list, every j-particle of every row
paired with its row's absolute shift, in pass order. -/
def mmJParticles (nbl : NbList) (pbcDx : Nat → Nat → Ishift) : List JPart :=
  (List.range nbl.iinr.length).flatMap
    (fun i => (jjnrSlice nbl i).map (fun a => ⟨a, rowShift nbl pbcDx i⟩))

/-- The comparison `struct_comp` used with `std::sort`: order by atom index. -/
def jLE (a b : JPart) : Prop := a.j ≤ b.j

instance : DecidableRel jLE := fun a b => inferInstanceAs (Decidable (a.j ≤ b.j))

instance : IsTotal JPart jLE := ⟨fun a b => Nat.le_total a.j b.j⟩

instance : IsTrans JPart jLE := ⟨fun _ _ _ h1 h2 => Nat.le_trans h1 h2⟩

/-- The in-place compaction loops of lines 690-712: walk the sorted array
keeping an element iff its index differs from the previous array element's
index (`prev`) and it passes `keep` (the MM pass additionally drops
QM-flagged and zero-charge atoms; the QM pass keeps everything). -/
def dedupFilter (keep : JPart → Bool) : List JPart → Option Nat → List JPart
  | [], _ => []
  | p :: rest, prev =>
    if some p.j ≠ prev ∧ keep p = true then p :: dedupFilter keep rest (some p.j)
    else dedupFilter keep rest (some p.j)

theorem dedupFilter_sublist (keep : JPart → Bool) :
    ∀ (l : List JPart) (prev : Option Nat), List.Sublist (dedupFilter keep l prev) l := by
  intro l
  induction l with
  | nil => intro prev; exact List.Sublist.refl _
  | cons p rest ih =>
    intro prev
    rw [dedupFilter]
    by_cases h : some p.j ≠ prev ∧ keep p = true
    · rw [if_pos h]; exact (ih (some p.j)).cons₂ p
    · rw [if_neg h]; exact (ih (some p.j)).cons p

theorem mem_dedupFilter (keep : JPart → Bool) :
    ∀ (l : List JPart) (prev : Option Nat) (p : JPart),
      p ∈ dedupFilter keep l prev → p ∈ l ∧ keep p = true := by
  intro l
  induction l with
  | nil => intro prev p h; rw [dedupFilter] at h; cases h
  | cons q rest ih =>
    intro prev p h
    rw [dedupFilter] at h
    by_cases hc : some q.j ≠ prev ∧ keep q = true
    · rw [if_pos hc] at h
      rcases List.mem_cons.mp h with h1 | h1
      · subst h1
        exact ⟨List.mem_cons_self _ _, hc.2⟩
      · obtain ⟨h2, h3⟩ := ih (some q.j) p h1
        exact ⟨List.mem_cons_of_mem _ h2, h3⟩
    · rw [if_neg hc] at h
      obtain ⟨h2, h3⟩ := ih (some q.j) p h
      exact ⟨List.mem_cons_of_mem _ h2, h3⟩

theorem dedupFilter_lt (keep : JPart → Bool) :
    ∀ (l : List JPart) (v : Nat), l.Sorted jLE → (∀ p ∈ l, v ≤ p.j) →
      ∀ q ∈ dedupFilter keep l (some v), v < q.j := by
  intro l
  induction l with
  | nil => intro v _ _ q hq; rw [dedupFilter] at hq; cases hq
  | cons p rest ih =>
    intro v hs hle q hq
    obtain ⟨hhead, htail⟩ := List.sorted_cons.mp hs
    rw [dedupFilter] at hq
    by_cases hc : some p.j ≠ some v ∧ keep p = true
    · rw [if_pos hc] at hq
      have hpv : v < p.j :=
        lt_of_le_of_ne (hle p (List.mem_cons_self _ _)) (fun h => hc.1 (by rw [h]))
      rcases List.mem_cons.mp hq with h1 | h1
      · exact h1 ▸ hpv
      · exact lt_trans hpv (ih p.j htail hhead q h1)
    · rw [if_neg hc] at hq
      have hpv : v ≤ p.j := hle p (List.mem_cons_self _ _)
      exact lt_of_le_of_lt hpv (ih p.j htail hhead q hq)

theorem dedupFilter_js_sorted (keep : JPart → Bool) :
    ∀ (l : List JPart), l.Sorted jLE →
      ∀ prev, ((dedupFilter keep l prev).map (fun p => p.j)).Sorted (· < ·) := by
  intro l
  induction l with
  | nil => intro _ prev; rw [dedupFilter]; exact List.sorted_nil
  | cons p rest ih =>
    intro hs prev
    obtain ⟨hhead, htail⟩ := List.sorted_cons.mp hs
    rw [dedupFilter]
    by_cases hc : some p.j ≠ prev ∧ keep p = true
    · rw [if_pos hc, List.map_cons, List.sorted_cons]
      constructor
      · intro b hb
        obtain ⟨q, hq, hqb⟩ := List.mem_map.mp hb
        exact hqb ▸ dedupFilter_lt keep rest p.j htail hhead q hq
      · exact ih htail (some p.j)
    · rw [if_neg hc]
      exact ih htail (some p.j)

theorem j_mem_dedupFilter :
    ∀ (l : List JPart) (prev : Option Nat) (p : JPart), p ∈ l →
      p.j ∈ (dedupFilter (fun _ => true) l prev).map (fun q => q.j)
        ∨ prev = some p.j := by
  intro l
  induction l with
  | nil => intro prev p h; cases h
  | cons q rest ih =>
    intro prev p hp
    rw [dedupFilter]
    by_cases hc : some q.j ≠ prev ∧ (fun _ : JPart => true) q = true
    · rw [if_pos hc]
      rcases List.mem_cons.mp hp with h1 | h1
      · exact Or.inl (by rw [h1, List.map_cons]; exact List.mem_cons_self _ _)
      · rcases ih (some q.j) p h1 with h2 | h2
        · exact Or.inl (by rw [List.map_cons]; exact List.mem_cons_of_mem _ h2)
        · refine Or.inl ?_
          rw [List.map_cons, Option.some_inj.mp h2.symm]
          exact List.mem_cons_self _ _
    · rw [if_neg hc]
      rcases List.mem_cons.mp hp with h1 | h1
      · have : prev = some q.j := by
          by_contra hne
          exact hc ⟨fun h => hne h.symm, rfl⟩
        exact Or.inr (by rw [h1]; exact this)
      · rcases ih (some q.j) p h1 with h2 | h2
        · exact Or.inl h2
        · have : prev = some q.j := by
            by_contra hne
            exact hc ⟨fun h => hne h.symm, rfl⟩
          exact Or.inr (by rw [← Option.some_inj.mp h2]; exact this)

theorem dedupFilter_eq_self (keep : JPart → Bool) :
    ∀ (l : List JPart) (prev : Option Nat),
      ((l.map (fun p => p.j)).Sorted (· < ·)) →
      (∀ p ∈ l, keep p = true) →
      (∀ v, prev = some v → ∀ p ∈ l, v ≠ p.j) →
      dedupFilter keep l prev = l := by
  intro l
  induction l with
  | nil => intro prev _ _ _; rw [dedupFilter]
  | cons p rest ih =>
    intro prev hs hk hprev
    rw [List.map_cons, List.sorted_cons] at hs
    rw [dedupFilter, if_pos, ih (some p.j) hs.2 (fun q hq => hk q (List.mem_cons_of_mem _ hq))]
    · intro v hv q hq
      have h3 := hs.1 q.j (List.mem_map.mpr ⟨q, hq, rfl⟩)
      rw [← Option.some_inj.mp hv]
      exact Nat.ne_of_lt h3
    · refine ⟨?_, hk p (List.mem_cons_self _ _)⟩
      intro hv
      cases hv2 : prev with
      | none => rw [hv2] at hv; cases hv
      | some v =>
        rw [hv2] at hv
        exact hprev v hv2 p (List.mem_cons_self _ _) (Option.some_inj.mp hv).symm

/-- The retention predicate of lines 705-708: an MM candidate survives iff
it is not QM-flagged and at least one of its charge states is nonzero
(`chargeB` contributing only when the B-state array exists). -/
def mmKeep (md : Mdatoms) (p : JPart) : Bool :=
  !md.bQM p.j &&
    (decide (md.chargeA p.j ≠ 0) ||
      match md.chargeB with
      | some cb => decide (cb p.j ≠ 0)
      | none => false)

theorem mmKeep_spec (md : Mdatoms) (p : JPart) (h : mmKeep md p = true) :
    md.bQM p.j = false ∧
      (md.chargeA p.j ≠ 0 ∨ ∃ cb, md.chargeB = some cb ∧ cb p.j ≠ 0) := by
  rw [mmKeep, Bool.and_eq_true] at h
  refine ⟨by simpa using h.1, ?_⟩
  have h2 := h.2
  rw [Bool.or_eq_true] at h2
  rcases h2 with h2 | h2
  · exact Or.inl (by simpa using h2)
  · cases hcb : md.chargeB with
    | none => rw [hcb] at h2; cases h2
    | some cb =>
      rw [hcb] at h2
      exact Or.inr ⟨cb, rfl, by simpa using h2⟩

/-- The sort-then-compact pass applied to the raw MM candidate list
(lines 680-713): `std::sort` by atom index, then the single compaction walk.
The sort is modelled by the stable `insertionSort` under the same
comparison. -/
def mmPass (md : Mdatoms) (raw : List JPart) : List JPart :=
  dedupFilter (mmKeep md) (List.insertionSort jLE raw) none

/-- Claim C10: the sort-deduplicate-filter pass over the raw MM candidate
list is idempotent. -/
theorem mmPass_idempotent (md : Mdatoms) (raw : List JPart) :
    mmPass md (mmPass md raw) = mmPass md raw := by
  have hsorted : (List.insertionSort jLE raw).Sorted jLE :=
    List.sorted_insertionSort jLE raw
  have h1 : (mmPass md raw).Sorted jLE :=
    List.Pairwise.sublist (dedupFilter_sublist _ _ _) hsorted
  rw [mmPass, h1.insertionSort_eq]
  refine dedupFilter_eq_self _ _ _ (dedupFilter_js_sorted _ _ hsorted none) ?_ ?_
  · intro p hp
    exact (mem_dedupFilter _ _ _ _ hp).2
  · intro v hv
    cases hv

/-- The compacted QM i-particle list (lines 690-697): sort by atom index,
then drop consecutive duplicates (no further filtering for the QM pass). -/
def qmSelected (nbl : NbList) (pbcDx : Nat → Nat → Ishift) : List JPart :=
  dedupFilter (fun _ => true) (List.insertionSort jLE (qmIParticles nbl pbcDx)) none

/-- The array the shift-assignment walk of lines 716-736 actually reads: the
compaction of lines 690-697 is in place, so positions past the compacted
length still hold the sorted array's entries. -/
def qmWalkArr (nbl : NbList) (pbcDx : Nat → Nat → Ishift) : List JPart :=
  qmSelected nbl pbcDx ++
    (List.insertionSort jLE (qmIParticles nbl pbcDx)).drop (qmSelected nbl pbcDx).length

/-- The compacted and filtered MM candidate list stored into the `t_MMrec`
(lines 698-713 and 779-789). -/
def mmSelected (nbl : NbList) (pbcDx : Nat → Nat → Ishift) (md : Mdatoms) : List JPart :=
  mmPass md (mmJParticles nbl pbcDx)

/-- The shift-assignment walk of lines 716-736: for each QM atom in order,
if its index matches the walk array's entry `k`, take that entry's shift and
advance `k`; otherwise carry the previous shift forward. -/
def shiftWalk (arr : List JPart) : List Nat → Nat → Ishift → List Ishift
  | [], _, _ => []
  | a :: rest, k, sh =>
    if (arr.getD k default).j = a then
      (arr.getD k default).shift :: shiftWalk arr rest (k + 1) (arr.getD k default).shift
    else sh :: shiftWalk arr rest k sh

/-- Structural restatement of `shiftWalk`: the walk only ever reads position
`k`, so carrying the remaining suffix instead of the index is equivalent. -/
def shiftWalkS : List JPart → List Nat → Ishift → List Ishift
  | _, [], _ => []
  | rem, a :: rest, sh =>
    if (rem.headD default).j = a then
      (rem.headD default).shift :: shiftWalkS rem.tail rest (rem.headD default).shift
    else sh :: shiftWalkS rem rest sh

/-- Follows the spec's words, for comparison with the walk of lines 716-736:
an atom present in the deduplicated i-particle list takes that i-particle's
shift; an absent atom carries the most recent preceding matched shift. -/
def specWalk (D : List JPart) : List Nat → Ishift → List Ishift
  | [], _ => []
  | a :: rest, sh =>
    match D.find? (fun p => decide (p.j = a)) with
    | some e => e.shift :: specWalk D rest e.shift
    | none => sh :: specWalk D rest sh

theorem getD_eq_headD_drop : ∀ (k : Nat) (arr : List JPart),
    arr.getD k default = (arr.drop k).headD default := by
  intro k
  induction k with
  | zero => intro arr; cases arr <;> rfl
  | succ n ih =>
    intro arr
    cases arr with
    | nil => rfl
    | cons p rest => exact ih rest

theorem shiftWalk_eq_shiftWalkS (arr : List JPart) :
    ∀ (atoms : List Nat) (k : Nat) (sh : Ishift),
      shiftWalk arr atoms k sh = shiftWalkS (arr.drop k) atoms sh := by
  intro atoms
  induction atoms with
  | nil => intro k sh; rfl
  | cons a rest ih =>
    intro k sh
    show (if (arr.getD k default).j = a then
            (arr.getD k default).shift :: shiftWalk arr rest (k + 1) (arr.getD k default).shift
          else sh :: shiftWalk arr rest k sh) =
        (if ((arr.drop k).headD default).j = a then
            ((arr.drop k).headD default).shift ::
              shiftWalkS (arr.drop k).tail rest ((arr.drop k).headD default).shift
          else sh :: shiftWalkS (arr.drop k) rest sh)
    rw [← getD_eq_headD_drop k arr, List.tail_drop]
    by_cases h : (arr.getD k default).j = a
    · rw [if_pos h, if_pos h, ih]
    · rw [if_neg h, if_neg h, ih]

/-- Per-step QM coordinate refresh (`update_QMMM_coord`, lines 210-215):
each QM atom's position minus its shift vector. -/
def qmCoords (x : Nat → Vec3) (shiftVec : Ishift → Vec3) (qm : QMrec) : List Vec3 :=
  (List.range qm.indexQM.length).map
    (fun i => x (qm.indexQM.getD i 0) - shiftVec (qm.shiftQM.getD i 0))

/-- Per-step MM coordinate refresh (`update_QMMM_coord`, lines 216-221). -/
def mmCoords (x : Nat → Vec3) (shiftVec : Ishift → Vec3) (mm : MMrec) : List Vec3 :=
  (List.range mm.nrMMatoms).map
    (fun i => x (mm.indexMM.getD i 0) - shiftVec (mm.shiftMM.getD i 0))

/-- `update_QMMM_coord`: refresh the shifted coordinates of both records. -/
def update_QMMM_coord (x : Nat → Vec3) (shiftVec : Ishift → Vec3)
    (qm : QMrec) (mm : MMrec) : QMrec × MMrec :=
  ({ qm with xQM := qmCoords x shiftVec qm }, { mm with xMM := mmCoords x shiftVec mm })

/-- The normal-scheme body of `update_QMMMrec` (lines 622-812): when the
neighbor list is non-empty, run the i-particle pass, the sorts, the
compactions, the shift-assignment walk and the MM store; with an empty list
the walk is skipped (`if (QMMMlist->nri)`) and the MM environment comes out
empty.  Charges are the A-state charges scaled by the global factor
(line 802, "no free energy yet"); finally `update_QMMM_coord` runs. -/
def updateNormal (pbcDx : Nat → Nat → Ishift) (shiftVec : Ishift → Vec3)
    (x : Nat → Vec3) (nbl : NbList) (md : Mdatoms) (qm : QMrec) (mm : MMrec) :
    QMrec × MMrec :=
  let qm1 :=
    if nbl.iinr.isEmpty then qm
    else { qm with shiftQM := shiftWalk (qmWalkArr nbl pbcDx) qm.indexQM 0 0 }
  let dMM := mmSelected nbl pbcDx md
  let mm1 := { mm with
    nrMMatoms := dMM.length
    indexMM := dMM.map (fun p => p.j)
    shiftMM := dMM.map (fun p => p.shift)
    MMcharges := dMM.map (fun p => md.chargeA p.j * mm.scalefactor) }
  update_QMMM_coord x shiftVec qm1 mm1

/-- `update_QMMMrec` (lines 579-828).  The normal branch rebuilds the MM
environment and the QM shifts from the neighbor list; the ONIOM branch
(lines 813-827) zeroes the MM count and, per layer, shifts atom 0 to zero and
every other atom to its minimum image relative to atom 0.  The multi-rank
reduction path (lines 739-777) is dead under the single-rank setup check of
`init_QMMMrec` and is not modelled. -/
def update_QMMMrec (pbcDx : Nat → Nat → Ishift) (shiftVec : Ishift → Vec3)
    (x : Nat → Vec3) (nbl : NbList) (md : Mdatoms) (qr : QMMMrec) : QMMMrec :=
  match qr.QMMMscheme with
  | Scheme.normal =>
    let r := updateNormal pbcDx shiftVec x nbl md (qr.qm.getD 0 default) qr.mm
    { qr with qm := qr.qm.set 0 r.1, mm := r.2 }
  | Scheme.oniom =>
    let mm0 : MMrec := { qr.mm with nrMMatoms := 0, xMM := [] }
    let qms := qr.qm.map (fun qm =>
      let sh := (List.range qm.indexQM.length).map (fun i =>
        if i = 0 then (0 : Ishift)
        else pbcDx (qm.indexQM.getD 0 0) (qm.indexQM.getD i 0))
      (update_QMMM_coord x shiftVec { qm with shiftQM := sh } mm0).1)
    { qr with qm := qms, mm := mm0 }

/-- Claim C4 (and the per-step part of C3): after a normal-scheme update the
MM environment's index list has no duplicates, no QM-flagged atom, and no
atom with all available charge states exactly zero. -/
theorem update_QMMMrec_mm_invariants (pbcDx : Nat → Nat → Ishift)
    (shiftVec : Ishift → Vec3) (x : Nat → Vec3) (nbl : NbList) (md : Mdatoms)
    (qr : QMMMrec) (h : qr.QMMMscheme = Scheme.normal) :
    (update_QMMMrec pbcDx shiftVec x nbl md qr).mm.indexMM.Nodup ∧
      ∀ a ∈ (update_QMMMrec pbcDx shiftVec x nbl md qr).mm.indexMM,
        md.bQM a = false ∧
          (md.chargeA a ≠ 0 ∨ ∃ cb, md.chargeB = some cb ∧ cb a ≠ 0) := by
  have hmm : (update_QMMMrec pbcDx shiftVec x nbl md qr).mm.indexMM
      = (mmSelected nbl pbcDx md).map (fun p => p.j) := by
    rcases qr with ⟨sch, nl, qms, mm⟩
    change sch = Scheme.normal at h
    subst h
    rfl
  rw [hmm]
  constructor
  · have hs := dedupFilter_js_sorted (mmKeep md)
      (List.insertionSort jLE (mmJParticles nbl pbcDx))
      (List.sorted_insertionSort _ _) none
    exact List.Pairwise.imp (fun hab => Nat.ne_of_lt hab) hs
  · intro a ha
    obtain ⟨p, hp, rfl⟩ := List.mem_map.mp ha
    exact mmKeep_spec md p (mem_dedupFilter _ _ _ _ hp).2

theorem update_QMMMrec_mm_invariants_witness :
    (QMMMrec.mk Scheme.normal 1 [stubLayer 0 [2]] default).QMMMscheme = Scheme.normal ∧
      ((update_QMMMrec (fun _ _ => 0) (fun _ => 0) (fun _ => 0)
          (NbList.mk [2] [0] [0, 2] [7, 9])
          (Mdatoms.mk 10 (fun a => decide (a = 2)) (fun _ => 1) none)
          (QMMMrec.mk Scheme.normal 1 [stubLayer 0 [2]] default)).mm.indexMM.Nodup ∧
        ∀ a ∈ (update_QMMMrec (fun _ _ => 0) (fun _ => 0) (fun _ => 0)
            (NbList.mk [2] [0] [0, 2] [7, 9])
            (Mdatoms.mk 10 (fun a => decide (a = 2)) (fun _ => 1) none)
            (QMMMrec.mk Scheme.normal 1 [stubLayer 0 [2]] default)).mm.indexMM,
          (Mdatoms.mk 10 (fun a => decide (a = 2)) (fun _ => 1) none).bQM a = false ∧
            ((Mdatoms.mk 10 (fun a => decide (a = 2)) (fun _ => 1) none).chargeA a ≠ 0 ∨
              ∃ cb, (Mdatoms.mk 10 (fun a => decide (a = 2)) (fun _ => 1) none).chargeB
                  = some cb ∧ cb a ≠ 0)) :=
  ⟨rfl, update_QMMMrec_mm_invariants _ _ _ _ _ _ rfl⟩

theorem getD_map_range {α : Type} (f : Nat → α) (n i : Nat) (d : α) (h : i < n) :
    ((List.range n).map f).getD i d = f i := by
  rw [List.getD_eq_getElem?_getD, List.getElem?_map, List.getElem?_range h]
  rfl

theorem qmIParticles_j_mem (nbl : NbList) (pbcDx : Nat → Nat → Ishift) :
    ∀ p ∈ qmIParticles nbl pbcDx, p.j ∈ nbl.iinr := by
  intro p hp
  obtain ⟨i, hi, rfl⟩ := List.mem_map.mp hp
  have hlt := List.mem_range.mp hi
  show nbl.iinr.getD i 0 ∈ nbl.iinr
  rw [List.getD_eq_getElem?_getD, List.getElem?_eq_getElem hlt]
  exact List.getElem_mem hlt

/-- Claim C6 (amended): with a non-empty neighbor list the first i-particle
row gets the zero shift and every later row `i` gets exactly the
minimum-image translation relative to the first i-particle; the neighbor
list's recorded row shift is composed in only when deriving that row's
j-particle (MM candidate) shifts. -/
theorem qmIParticles_shifts (nbl : NbList) (pbcDx : Nat → Nat → Ishift)
    (h : nbl.iinr ≠ []) :
    (qmIParticles nbl pbcDx).getD 0 default = ⟨nbl.iinr.getD 0 0, 0⟩ ∧
      (∀ i, 0 < i → i < nbl.iinr.length →
        (qmIParticles nbl pbcDx).getD i default =
          ⟨nbl.iinr.getD i 0, pbcDx (nbl.iinr.getD 0 0) (nbl.iinr.getD i 0)⟩) ∧
      (∀ p ∈ mmJParticles nbl pbcDx, ∃ i, i < nbl.iinr.length ∧
        p.shift = nbl.shift.getD i 0 + ((qmIParticles nbl pbcDx).getD i default).shift) := by
  refine ⟨?_, ?_, ?_⟩
  · have h0 : 0 < nbl.iinr.length := List.length_pos.mpr h
    rw [qmIParticles, getD_map_range _ _ _ _ h0, if_pos rfl]
  · intro i h1 h2
    rw [qmIParticles, getD_map_range _ _ _ _ h2, if_neg (Nat.pos_iff_ne_zero.mp h1)]
  · intro p hp
    obtain ⟨i, hi, hp2⟩ := List.mem_flatMap.mp hp
    obtain ⟨a, _, rfl⟩ := List.mem_map.mp hp2
    exact ⟨i, List.mem_range.mp hi, rfl⟩

/-- Claim C6, counterexample to the statement as written: with row 1
carrying a nonzero recorded shift and a zero minimum-image translation, the
stored i-particle shift is the minimum image alone (zero), not its
composition with the recorded row shift. -/
theorem qmIParticles_shift_not_composed :
    ((qmIParticles (NbList.mk [5, 7] [0, (1, 0, 0)] [0, 0, 0] []) (fun _ _ => 0)).getD 1
        default).shift = 0 ∧
      (fun _ _ => (0 : Ishift)) 5 7 +
          (NbList.mk [5, 7] [0, (1, 0, 0)] [0, 0, 0] [] : NbList).shift.getD 1 0
        = ((1, 0, 0) : Ishift) ∧
      ((0 : Ishift)) ≠ ((1, 0, 0) : Ishift) := by
  refine ⟨rfl, by decide, by decide⟩

theorem qmIParticles_shifts_witness :
    (NbList.mk [5, 7] [0, (1, 0, 0)] [0, 0, 0] [] : NbList).iinr ≠ [] ∧
      ((qmIParticles (NbList.mk [5, 7] [0, (1, 0, 0)] [0, 0, 0] []) (fun _ _ => 0)).getD 0
          default
        = ⟨(NbList.mk [5, 7] [0, (1, 0, 0)] [0, 0, 0] [] : NbList).iinr.getD 0 0, 0⟩ ∧
      (∀ i, 0 < i → i < (NbList.mk [5, 7] [0, (1, 0, 0)] [0, 0, 0] [] : NbList).iinr.length →
        (qmIParticles (NbList.mk [5, 7] [0, (1, 0, 0)] [0, 0, 0] []) (fun _ _ => 0)).getD i
            default =
          ⟨(NbList.mk [5, 7] [0, (1, 0, 0)] [0, 0, 0] [] : NbList).iinr.getD i 0,
            (fun _ _ => (0 : Ishift))
              ((NbList.mk [5, 7] [0, (1, 0, 0)] [0, 0, 0] [] : NbList).iinr.getD 0 0)
              ((NbList.mk [5, 7] [0, (1, 0, 0)] [0, 0, 0] [] : NbList).iinr.getD i 0)⟩) ∧
      (∀ p ∈ mmJParticles (NbList.mk [5, 7] [0, (1, 0, 0)] [0, 0, 0] []) (fun _ _ => 0),
        ∃ i, i < (NbList.mk [5, 7] [0, (1, 0, 0)] [0, 0, 0] [] : NbList).iinr.length ∧
          p.shift = (NbList.mk [5, 7] [0, (1, 0, 0)] [0, 0, 0] [] : NbList).shift.getD i 0 +
            ((qmIParticles (NbList.mk [5, 7] [0, (1, 0, 0)] [0, 0, 0] []) (fun _ _ => 0)).getD
                i default).shift)) :=
  ⟨by decide, qmIParticles_shifts _ _ (by decide)⟩

theorem specWalk_cons_skip (e : JPart) (D : List JPart) :
    ∀ (atoms : List Nat) (sh : Ishift), (∀ b ∈ atoms, e.j ≠ b) →
      specWalk (e :: D) atoms sh = specWalk D atoms sh := by
  intro atoms
  induction atoms with
  | nil => intro sh _; rfl
  | cons a rest ih =>
    intro sh h
    have hne : ¬((fun p : JPart => decide (p.j = a)) e = true) := by
      simp only [decide_eq_true_eq]
      exact h a (List.mem_cons_self _ _)
    have hrest : ∀ b ∈ rest, e.j ≠ b := fun b hb => h b (List.mem_cons_of_mem _ hb)
    show (match (e :: D).find? (fun p => decide (p.j = a)) with
          | some e2 => e2.shift :: specWalk (e :: D) rest e2.shift
          | none => sh :: specWalk (e :: D) rest sh) =
        (match D.find? (fun p => decide (p.j = a)) with
          | some e2 => e2.shift :: specWalk D rest e2.shift
          | none => sh :: specWalk D rest sh)
    have hfind : (e :: D).find? (fun p => decide (p.j = a))
        = D.find? (fun p => decide (p.j = a)) :=
      List.find?_cons_of_neg _ hne
    rw [hfind]
    cases hf : D.find? (fun p => decide (p.j = a)) with
    | some e2 => simp only [ih e2.shift hrest]
    | none => simp only [ih sh hrest]

theorem shiftWalkS_spec :
    ∀ (atoms : List Nat) (Dr T : List JPart) (sh : Ishift),
      atoms.Sorted (· < ·) →
      ((Dr.map (fun p => p.j)).Sorted (· < ·)) →
      (∀ p ∈ Dr, p.j ∈ atoms) →
      (∀ p ∈ T, p.j ∈ Dr.map (fun q => q.j) ∨ ∀ a ∈ atoms, p.j < a) →
      atoms.length ≤ Dr.length + T.length →
      shiftWalkS (Dr ++ T) atoms sh = specWalk Dr atoms sh := by
  intro atoms
  induction atoms with
  | nil => intro Dr T sh _ _ _ _ _; rfl
  | cons a rest ih =>
    intro Dr T sh hA hD hsub hT hlen
    obtain ⟨hahead, hAtail⟩ := List.sorted_cons.mp hA
    cases Dr with
    | nil =>
      cases T with
      | nil => simp at hlen
      | cons t T' =>
        have htja : t.j < a := by
          rcases hT t (List.mem_cons_self _ _) with h1 | h1
          · simp at h1
          · exact h1 a (List.mem_cons_self _ _)
        show (if t.j = a then t.shift :: shiftWalkS T' rest t.shift
              else sh :: shiftWalkS (t :: T') rest sh) = sh :: specWalk [] rest sh
        rw [if_neg (Nat.ne_of_lt htja)]
        refine congrArg _ ?_
        refine ih [] (t :: T') sh hAtail List.sorted_nil (fun p hp => absurd hp
          (List.not_mem_nil p)) ?_ ?_
        · intro p hp
          rcases hT p hp with h1 | h1
          · simp at h1
          · exact Or.inr (fun b hb => h1 b (List.mem_cons_of_mem _ hb))
        · simp only [List.length_cons, List.length_nil] at hlen ⊢
          omega
    | cons e Dr' =>
      have hDc := hD
      rw [List.map_cons, List.sorted_cons] at hDc
      by_cases h : e.j = a
      · show (if e.j = a then e.shift :: shiftWalkS (Dr' ++ T) rest e.shift
              else sh :: shiftWalkS (e :: (Dr' ++ T)) rest sh) = _
        rw [if_pos h]
        have hfind : (e :: Dr').find? (fun p => decide (p.j = a)) = some e :=
          List.find?_cons_of_pos _ (by simp [h])
        show _ = (match (e :: Dr').find? (fun p => decide (p.j = a)) with
          | some e2 => e2.shift :: specWalk (e :: Dr') rest e2.shift
          | none => sh :: specWalk (e :: Dr') rest sh)
        rw [hfind]
        show e.shift :: shiftWalkS (Dr' ++ T) rest e.shift
          = e.shift :: specWalk (e :: Dr') rest e.shift
        have hskip : ∀ b ∈ rest, e.j ≠ b := by
          intro b hb
          rw [h]
          exact Nat.ne_of_lt (hahead b hb)
        rw [specWalk_cons_skip e Dr' rest e.shift hskip]
        refine congrArg _ ?_
        refine ih Dr' T e.shift hAtail hDc.2 ?_ ?_ ?_
        · intro p hp
          have h1 : p.j ∈ a :: rest := hsub p (List.mem_cons_of_mem _ hp)
          have h2 : a < p.j := h ▸ hDc.1 p.j (List.mem_map.mpr ⟨p, hp, rfl⟩)
          rcases List.mem_cons.mp h1 with h3 | h3
          · exact absurd (h3 ▸ h2) (lt_irrefl _)
          · exact h3
        · intro p hp
          rcases hT p hp with h1 | h1
          · rw [List.map_cons] at h1
            rcases List.mem_cons.mp h1 with h2 | h2
            · refine Or.inr (fun b hb => ?_)
              rw [h2, h]
              exact hahead b hb
            · exact Or.inl h2
          · exact Or.inr (fun b hb => h1 b (List.mem_cons_of_mem _ hb))
        · simp only [List.length_cons] at hlen ⊢
          omega
      · have hein : e.j ∈ rest := by
          rcases List.mem_cons.mp (hsub e (List.mem_cons_self _ _)) with h1 | h1
          · exact absurd h1 h
          · exact h1
        have hae : a < e.j := hahead e.j hein
        show (if e.j = a then e.shift :: shiftWalkS (Dr' ++ T) rest e.shift
              else sh :: shiftWalkS (e :: (Dr' ++ T)) rest sh) = _
        rw [if_neg h]
        have hfind : (e :: Dr').find? (fun p => decide (p.j = a)) = none := by
          rw [List.find?_eq_none]
          intro p hp
          simp only [decide_eq_true_eq]
          rcases List.mem_cons.mp hp with h1 | h1
          · rw [h1]; exact h
          · have : e.j < p.j := hDc.1 p.j (List.mem_map.mpr ⟨p, h1, rfl⟩)
            exact (Nat.ne_of_lt (lt_trans hae this)).symm
        show _ = (match (e :: Dr').find? (fun p => decide (p.j = a)) with
          | some e2 => e2.shift :: specWalk (e :: Dr') rest e2.shift
          | none => sh :: specWalk (e :: Dr') rest sh)
        rw [hfind]
        show sh :: shiftWalkS (e :: (Dr' ++ T)) rest sh
          = sh :: specWalk (e :: Dr') rest sh
        refine congrArg _ ?_
        refine ih (e :: Dr') T sh hAtail hD ?_ ?_ ?_
        · intro p hp
          rcases List.mem_cons.mp hp with h1 | h1
          · rw [h1]; exact hein
          · have h2 : p.j ∈ a :: rest := hsub p (List.mem_cons_of_mem _ h1)
            have h3 : e.j < p.j := hDc.1 p.j (List.mem_map.mpr ⟨p, h1, rfl⟩)
            rcases List.mem_cons.mp h2 with h4 | h4
            · exact absurd (h4 ▸ lt_trans hae h3) (lt_irrefl _)
            · exact h4
        · intro p hp
          rcases hT p hp with h1 | h1
          · exact Or.inl h1
          · exact Or.inr (fun b hb => h1 b (List.mem_cons_of_mem _ hb))
        · simp only [List.length_cons] at hlen ⊢
          omega

/-- The shift-assignment walk over the in-place compacted array agrees with
the spec's carry-forward description whenever the QM atom list is strictly
ascending, every i-particle is a QM atom, and the neighbor list has at least
as many rows as there are QM atoms (the source's stated precondition
`nri >= nrQMatoms`). -/
theorem shiftWalk_carry (nbl : NbList) (pbcDx : Nat → Nat → Ishift)
    (atoms : List Nat) (hsorted : atoms.Sorted (· < ·))
    (hmem : ∀ a ∈ nbl.iinr, a ∈ atoms)
    (hlen : atoms.length ≤ nbl.iinr.length) :
    shiftWalk (qmWalkArr nbl pbcDx) atoms 0 0 = specWalk (qmSelected nbl pbcDx) atoms 0 := by
  rw [shiftWalk_eq_shiftWalkS, List.drop_zero, qmWalkArr]
  have hsort : (List.insertionSort jLE (qmIParticles nbl pbcDx)).Sorted jLE :=
    List.sorted_insertionSort _ _
  refine shiftWalkS_spec atoms _ _ 0 hsorted
    (dedupFilter_js_sorted _ _ hsort none) ?_ ?_ ?_
  · intro p hp
    have hp2 : p ∈ qmIParticles nbl pbcDx := by
      simpa using (mem_dedupFilter _ _ _ _ hp).1
    exact hmem p.j (qmIParticles_j_mem nbl pbcDx p hp2)
  · intro p hp
    have hp2 : p ∈ List.insertionSort jLE (qmIParticles nbl pbcDx) :=
      List.drop_subset _ _ hp
    rcases j_mem_dedupFilter _ none p hp2 with h1 | h1
    · exact Or.inl h1
    · cases h1
  · have e1 : (qmSelected nbl pbcDx).length ≤
        (List.insertionSort jLE (qmIParticles nbl pbcDx)).length :=
      (dedupFilter_sublist _ _ _).length_le
    have e2 : (List.insertionSort jLE (qmIParticles nbl pbcDx)).length
        = nbl.iinr.length := by
      rw [List.length_insertionSort, qmIParticles, List.length_map, List.length_range]
    rw [List.length_drop, e2]
    omega

theorem update_QMMMrec_indexMM (pbcDx : Nat → Nat → Ishift) (shiftVec : Ishift → Vec3)
    (x : Nat → Vec3) (nbl : NbList) (md : Mdatoms) (qr : QMMMrec)
    (h : qr.QMMMscheme = Scheme.normal) :
    (update_QMMMrec pbcDx shiftVec x nbl md qr).mm.indexMM
      = (mmSelected nbl pbcDx md).map (fun p => p.j) := by
  rcases qr with ⟨sch, nl, qms, mm⟩
  change sch = Scheme.normal at h
  subst h
  rfl

/-- Claim C7: under the Normal scheme with a non-empty neighbor list, when
the QM atom list is strictly ascending, every i-particle is a QM atom and
the list has at least as many rows as QM atoms, the stored per-atom shifts
equal the spec's walk: an atom present in the deduplicated i-particle list
takes that entry's shift, an absent atom carries the most recent preceding
matched shift (initially zero). -/
theorem update_QMMMrec_shift_carry (pbcDx : Nat → Nat → Ishift)
    (shiftVec : Ishift → Vec3) (x : Nat → Vec3) (nbl : NbList) (md : Mdatoms)
    (qr : QMMMrec) (h : qr.QMMMscheme = Scheme.normal) (hne : nbl.iinr ≠ [])
    (hsorted : (qr.qm.getD 0 default).indexQM.Sorted (· < ·))
    (hmem : ∀ a ∈ nbl.iinr, a ∈ (qr.qm.getD 0 default).indexQM)
    (hlen : (qr.qm.getD 0 default).indexQM.length ≤ nbl.iinr.length) :
    ((update_QMMMrec pbcDx shiftVec x nbl md qr).qm.getD 0 default).shiftQM =
      specWalk (qmSelected nbl pbcDx) ((qr.qm.getD 0 default).indexQM) 0 := by
  have hie : ¬(nbl.iinr.isEmpty = true) := by
    cases hi : nbl.iinr with
    | nil => exact absurd hi hne
    | cons b bs => simp
  rcases qr with ⟨sch, nl, qms, mm⟩
  change sch = Scheme.normal at h
  subst h
  cases qms with
  | nil => rfl
  | cons q0 qtail =>
    have hupd : ((update_QMMMrec pbcDx shiftVec x nbl md
        ⟨Scheme.normal, nl, q0 :: qtail, mm⟩).qm.getD 0 default).shiftQM
        = (if nbl.iinr.isEmpty then q0
           else { q0 with
                  shiftQM := shiftWalk (qmWalkArr nbl pbcDx) q0.indexQM 0 0 }).shiftQM := rfl
    rw [hupd, if_neg hie]
    exact shiftWalk_carry nbl pbcDx q0.indexQM hsorted hmem hlen

theorem update_QMMMrec_shift_carry_witness :
    (QMMMrec.mk Scheme.normal 1 [stubLayer 0 [2, 5]] default).QMMMscheme = Scheme.normal ∧
      (NbList.mk [2, 2, 5] [0, 0, 0] [0, 0, 0, 0] [] : NbList).iinr ≠ [] ∧
      ((QMMMrec.mk Scheme.normal 1 [stubLayer 0 [2, 5]] default).qm.getD 0
          default).indexQM.Sorted (· < ·) ∧
      (∀ a ∈ (NbList.mk [2, 2, 5] [0, 0, 0] [0, 0, 0, 0] [] : NbList).iinr,
        a ∈ ((QMMMrec.mk Scheme.normal 1 [stubLayer 0 [2, 5]] default).qm.getD 0
          default).indexQM) ∧
      ((QMMMrec.mk Scheme.normal 1 [stubLayer 0 [2, 5]] default).qm.getD 0
          default).indexQM.length ≤
        (NbList.mk [2, 2, 5] [0, 0, 0] [0, 0, 0, 0] [] : NbList).iinr.length ∧
      ((update_QMMMrec (fun _ _ => 0) (fun _ => 0) (fun _ => 0)
          (NbList.mk [2, 2, 5] [0, 0, 0] [0, 0, 0, 0] [])
          (Mdatoms.mk 10 (fun _ => false) (fun _ => 1) none)
          (QMMMrec.mk Scheme.normal 1 [stubLayer 0 [2, 5]] default)).qm.getD 0
            default).shiftQM =
        specWalk (qmSelected (NbList.mk [2, 2, 5] [0, 0, 0] [0, 0, 0, 0] []) (fun _ _ => 0))
          ((QMMMrec.mk Scheme.normal 1 [stubLayer 0 [2, 5]] default).qm.getD 0
            default).indexQM 0 :=
  ⟨rfl, by decide, by decide, by decide, by decide,
    update_QMMMrec_shift_carry _ _ _ _ _ _ rfl (by decide) (by decide) (by decide) (by decide)⟩

/-- The cutoff scheme flag (`ecutsVERLET` / `ecutsGROUP`). -/
inductive CutoffScheme where
  | verlet
  | group
  deriving DecidableEq

/-- A representative set of integrator selections (`eI` of md_enums.h,
outside src/). -/
inductive Integrator where
  | md
  | sd
  | bd
  | steep
  | cg
  | nm
  | tpi
  deriving DecidableEq

/-- Modelled from the spec: the dynamics-integrator classification
`EI_DYNAMICS` of md_enums.h (outside src/) — molecular dynamics, stochastic
dynamics and Brownian dynamics count as dynamics integrators. -/
def EI_DYNAMICS : Integrator → Bool
  | Integrator.md | Integrator.sd | Integrator.bd => true
  | _ => false

/-- The topology data consumed here, flattened to global atom indices: the
per-atom quantum-group assignment (`getGroupType` for the
QuantumMechanics group class), per-atom atomic numbers
(`mtopGetAtomParameters` composed with `atomtypes.atomnumber`), the
`F_VSITE2` interaction triples `(vsite, ai, aj)` with molecule offsets
already applied, and the two per-atom charge states mutated by
`removeQmmmAtomCharges`. -/
structure Mtop where
  natoms : Nat
  atomnumber : Nat → Nat
  groupType : Nat → Nat
  vsites : List (Nat × Nat × Nat)
  q : Nat → ℚ
  qB : Nat → ℚ

/-- The `t_inputrec` fields consumed here. -/
structure Inputrec where
  cutoff_scheme : CutoffScheme
  eI : Integrator
  QMMMscheme : Scheme
  ngQM : Nat
  QMcharge : List Int
  QMmult : List Nat
  QMmethod : List Nat
  QMbasis : List Nat
  scalefactor : ℚ

/-- The communication record: only the rank count matters here. -/
structure Commrec where
  nnodes : Nat

/-- Modelled from the spec: `PAR(cr)` (network.h, outside src/) — more than
one execution rank requested. -/
def PAR (cr : Commrec) : Bool := decide (1 < cr.nnodes)

/-- Which QM backends were compiled in (`GMX_QMMM`, `GMX_QMMM_MOPAC`, ...). -/
structure BuildConfig where
  gmxQmmm : Bool
  mopac : Bool
  gamess : Bool
  gaussian : Bool
  orca : Bool

/-- Modelled from the spec: the method enumeration of md_enums.h (outside
src/) places the semi-empirical methods below `eQMmethodRHF`; only that
ordering is used (`qm->QMmethod < eQMmethodRHF` means semi-empirical). -/
def eQMmethodRHF : Nat := 2

/-- The ONIOM linker-removal loop of `qmmmAtomIndices` (lines 370-400): for
each `F_VSITE2` triple whose virtual site and both constructing atoms carry
the same quantum group, erase every occurrence of the virtual site from the
accumulated list. -/
def vsitePrune (gt : Nat → Nat) : List (Nat × Nat × Nat) → List Nat → List Nat
  | [], acc => acc
  | t :: ts, acc =>
    vsitePrune gt ts
      (if gt t.1 = gt t.2.1 ∧ gt t.1 = gt t.2.2
       then acc.filter (fun atom => decide (atom ≠ t.1)) else acc)

/-- The group loop of `qmmmAtomIndices` (lines 355-403) run for the first
`n` groups: append the atoms whose group lookup returns the group, and for
the ONIOM scheme run the linker-removal pass after each group. -/
def qmmmAtomsUpTo (ir : Inputrec) (mtop : Mtop) : Nat → List Nat
  | 0 => []
  | n + 1 =>
    let acc := qmmmAtomsUpTo ir mtop n
      ++ (List.range mtop.natoms).filter (fun a => decide (mtop.groupType a = n))
    if ir.QMMMscheme = Scheme.oniom then vsitePrune mtop.groupType mtop.vsites acc else acc

/-- `qmmmAtomIndices` (lines 355-403): the flat list of QM atom indices
accumulated over all configured groups. -/
def qmmmAtomIndices (ir : Inputrec) (mtop : Mtop) : List Nat :=
  qmmmAtomsUpTo ir mtop ir.ngQM

/-- `removeQmmmAtomCharges` (lines 405-416): zero both charge states of
every listed atom in the topology. -/
def removeQmmmAtomCharges (mtop : Mtop) (qmmmAtoms : List Nat) : Mtop :=
  qmmmAtoms.foldl
    (fun t a => { t with q := Function.update t.q a 0, qB := Function.update t.qB a 0 }) mtop

/-- `init_QMrec` (lines 242-286): fill a layer's record from the atom index
array, the topology and the per-group run parameters; the shift and
coordinate arrays are freshly zeroed (`snew`). -/
def init_QMrec (grpnr : Nat) (atomarray : List Nat) (mtop : Mtop) (ir : Inputrec) : QMrec :=
  { indexQM := atomarray
    atomicnumberQM := atomarray.map mtop.atomnumber
    shiftQM := atomarray.map (fun _ => 0)
    xQM := atomarray.map (fun _ => 0)
    QMmethod := ir.QMmethod.getD grpnr 0
    QMbasis := ir.QMbasis.getD grpnr 0
    QMcharge := ir.QMcharge.getD grpnr 0
    multiplicity := ir.QMmult.getD grpnr 0
    nelectrons :=
      (atomarray.map (fun a => (mtop.atomnumber a : Int))).sum - ir.QMcharge.getD grpnr 0 }

/-- The record built by the success path of `init_QMMMrec` (lines 449-532):
for ONIOM, one layer per configured group, each initialised from the same
full `qmmmAtoms` list (the source passes `qmmmAtoms.data()` unsliced to
every `init_QMrec` call); otherwise one merged QM subsystem and an MM count
of the remaining atoms. -/
def mkQMMMrec (mtop : Mtop) (ir : Inputrec) : QMMMrec :=
  let nrQMlayers := if ir.QMMMscheme = Scheme.oniom then ir.ngQM else 1
  let qmmmAtoms := qmmmAtomIndices ir mtop
  let qmList :=
    if ir.QMMMscheme = Scheme.oniom then
      (List.range ir.ngQM).map (fun i => init_QMrec i qmmmAtoms mtop ir)
    else [init_QMrec 0 qmmmAtoms mtop ir]
  let mm : MMrec :=
    if ir.QMMMscheme ≠ Scheme.oniom then
      { nrMMatoms := mtop.natoms - qmmmAtoms.length, indexMM := [], shiftMM := [],
        MMcharges := [], xMM := [], scalefactor := ir.scalefactor }
    else
      { nrMMatoms := 0, indexMM := [], shiftMM := [], MMcharges := [], xMM := [],
        scalefactor := ir.scalefactor }
  { QMMMscheme := ir.QMMMscheme, nrQMlayers := nrQMlayers, qm := qmList, mm := mm }

/-- The fatal exits `init_QMMMrec` can take (gmx_incons / gmx_fatal). -/
inductive InitError where
  | inconsNoQmmm
  | fatalCutoffScheme
  | fatalNotDynamics
  | fatalParallel
  | fatalSemiEmpiricalNeedsMopac
  | fatalAbInitioNeedsBackend
  deriving DecidableEq

/-- The one-time backend initialisation of `init_QMMMrec` for a single
layer (lines 536-576): a semi-empirical method requires the Mopac backend,
an ab-initio method one of Gamess/Gaussian/Orca; an unavailable backend is
fatal. -/
def initBackendCheck (cfg : BuildConfig) (qr : QMMMrec) : Except InitError QMMMrec :=
  if qr.nrQMlayers = 1 then
    if (qr.qm.getD 0 default).QMmethod < eQMmethodRHF then
      if cfg.mopac then Except.ok qr
      else Except.error InitError.fatalSemiEmpiricalNeedsMopac
    else if cfg.gamess || cfg.gaussian || cfg.orca then Except.ok qr
    else Except.error InitError.fatalAbInitioNeedsBackend
  else Except.ok qr

/-- `init_QMMMrec` (lines 418-577): the compile/configuration guards in
source order (QMMM compiled in, group cutoff scheme, dynamics integrator,
single rank), then the record construction, then the single-layer backend
initialisation. -/
def init_QMMMrec (cfg : BuildConfig) (cr : Commrec) (mtop : Mtop) (ir : Inputrec) :
    Except InitError QMMMrec :=
  if ¬cfg.gmxQmmm then Except.error InitError.inconsNoQmmm
  else if ir.cutoff_scheme ≠ CutoffScheme.group then Except.error InitError.fatalCutoffScheme
  else if ¬EI_DYNAMICS ir.eI then Except.error InitError.fatalNotDynamics
  else if PAR cr then Except.error InitError.fatalParallel
  else initBackendCheck cfg (mkQMMMrec mtop ir)

theorem init_backend_tail_ne (cfg : BuildConfig) (qr : QMMMrec) (e : InitError)
    (he : e = InitError.fatalCutoffScheme ∨ e = InitError.fatalNotDynamics ∨
      e = InitError.fatalParallel) :
    initBackendCheck cfg qr ≠ Except.error e := by
  intro hc
  rw [initBackendCheck] at hc
  split_ifs at hc <;> rcases he with rfl | rfl | rfl <;> simp at hc

theorem initBackendCheck_ok (cfg : BuildConfig) (qr qr2 : QMMMrec)
    (h : initBackendCheck cfg qr = Except.ok qr2) : qr2 = qr := by
  rw [initBackendCheck] at h
  split_ifs at h
  all_goals first
    | exact Except.noConfusion h
    | (injection h with h2; exact h2.symm)

/-- Claim C5: given QMMM support is compiled in, setup fails with one of the
three configuration fatals (wrong cutoff scheme, non-dynamics integrator,
more than one rank) exactly when one of those conditions holds; otherwise
none of these errors is raised (the remaining exits concern backend
availability, a different error). -/
theorem init_QMMMrec_config_errors (cfg : BuildConfig) (cr : Commrec)
    (mtop : Mtop) (ir : Inputrec) (h : cfg.gmxQmmm = true) :
    (init_QMMMrec cfg cr mtop ir = Except.error InitError.fatalCutoffScheme ∨
      init_QMMMrec cfg cr mtop ir = Except.error InitError.fatalNotDynamics ∨
      init_QMMMrec cfg cr mtop ir = Except.error InitError.fatalParallel) ↔
      (1 < cr.nnodes ∨ ir.cutoff_scheme ≠ CutoffScheme.group ∨
        EI_DYNAMICS ir.eI = false) := by
  rw [init_QMMMrec, if_neg (by simp [h])]
  by_cases h1 : ir.cutoff_scheme ≠ CutoffScheme.group
  · rw [if_pos h1]
    exact ⟨fun _ => Or.inr (Or.inl h1), fun _ => Or.inl rfl⟩
  · rw [if_neg h1]
    by_cases h2 : ¬EI_DYNAMICS ir.eI = true
    · rw [if_pos h2]
      exact ⟨fun _ => Or.inr (Or.inr (Bool.not_eq_true _ ▸ h2)),
        fun _ => Or.inr (Or.inl rfl)⟩
    · rw [if_neg h2]
      by_cases h3 : PAR cr = true
      · rw [if_pos h3]
        exact ⟨fun _ => Or.inl (of_decide_eq_true h3), fun _ => Or.inr (Or.inr rfl)⟩
      · rw [if_neg h3]
        constructor
        · intro hl
          exfalso
          rcases hl with he | he | he
          · exact init_backend_tail_ne cfg (mkQMMMrec mtop ir) _ (Or.inl rfl) he
          · exact init_backend_tail_ne cfg (mkQMMMrec mtop ir) _ (Or.inr (Or.inl rfl)) he
          · exact init_backend_tail_ne cfg (mkQMMMrec mtop ir) _ (Or.inr (Or.inr rfl)) he
        · intro hr
          exfalso
          rcases hr with hp | hp | hp
          · exact h3 (decide_eq_true hp)
          · exact h1 hp
          · rw [not_not] at h2
            rw [h2] at hp
            simp at hp

/-- A two-atom topology whose atoms sit in quantum groups 0 and 1. -/
def mtopTwoGroups : Mtop :=
  { natoms := 2, atomnumber := fun _ => 1, groupType := fun a => a, vsites := [],
    q := fun _ => 1, qB := fun _ => 0 }

/-- A two-group ONIOM input record. -/
def irOniomTwo : Inputrec :=
  { cutoff_scheme := CutoffScheme.group, eI := Integrator.md,
    QMMMscheme := Scheme.oniom, ngQM := 2, QMcharge := [0, 0], QMmult := [1, 1],
    QMmethod := [2, 2], QMbasis := [0, 0], scalefactor := 1 }

/-- A build with every backend available. -/
def cfgAll : BuildConfig :=
  { gmxQmmm := true, mopac := true, gamess := true, gaussian := true, orca := true }

theorem init_QMMMrec_config_errors_witness :
    cfgAll.gmxQmmm = true ∧
      ((init_QMMMrec cfgAll (Commrec.mk 2) mtopTwoGroups irOniomTwo
            = Except.error InitError.fatalCutoffScheme ∨
          init_QMMMrec cfgAll (Commrec.mk 2) mtopTwoGroups irOniomTwo
            = Except.error InitError.fatalNotDynamics ∨
          init_QMMMrec cfgAll (Commrec.mk 2) mtopTwoGroups irOniomTwo
            = Except.error InitError.fatalParallel) ↔
        (1 < (Commrec.mk 2 : Commrec).nnodes ∨
          irOniomTwo.cutoff_scheme ≠ CutoffScheme.group ∨
          EI_DYNAMICS irOniomTwo.eI = false)) :=
  ⟨rfl, init_QMMMrec_config_errors cfgAll (Commrec.mk 2) mtopTwoGroups irOniomTwo rfl⟩

theorem vsitePrune_subset (gt : Nat → Nat) :
    ∀ (vs : List (Nat × Nat × Nat)) (acc : List Nat), ∀ a ∈ vsitePrune gt vs acc, a ∈ acc := by
  intro vs
  induction vs with
  | nil => intro acc a ha; exact ha
  | cons t ts ih =>
    intro acc a ha
    rw [vsitePrune] at ha
    have h2 := ih _ a ha
    by_cases hc : gt t.1 = gt t.2.1 ∧ gt t.1 = gt t.2.2
    · rw [if_pos hc] at h2; exact List.mem_of_mem_filter h2
    · rw [if_neg hc] at h2; exact h2

theorem vsitePrune_nodup (gt : Nat → Nat) :
    ∀ (vs : List (Nat × Nat × Nat)) (acc : List Nat), acc.Nodup →
      (vsitePrune gt vs acc).Nodup := by
  intro vs
  induction vs with
  | nil => intro acc h; exact h
  | cons t ts ih =>
    intro acc h
    rw [vsitePrune]
    refine ih _ ?_
    by_cases hc : gt t.1 = gt t.2.1 ∧ gt t.1 = gt t.2.2
    · rw [if_pos hc]; exact h.filter _
    · rw [if_neg hc]; exact h

theorem qmmmAtomsUpTo_nodup (ir : Inputrec) (mtop : Mtop) :
    ∀ n, (qmmmAtomsUpTo ir mtop n).Nodup ∧
      ∀ a ∈ qmmmAtomsUpTo ir mtop n, mtop.groupType a < n := by
  intro n
  induction n with
  | zero => exact ⟨List.nodup_nil, fun a ha => absurd ha (List.not_mem_nil a)⟩
  | succ n ih =>
    have haccn : (qmmmAtomsUpTo ir mtop n ++ (List.range mtop.natoms).filter
        (fun a => decide (mtop.groupType a = n))).Nodup := by
      rw [List.nodup_append]
      refine ⟨ih.1, (List.nodup_range _).filter _, ?_⟩
      intro a ha hb
      have h1 := ih.2 a ha
      have h2 : mtop.groupType a = n := by simpa using List.of_mem_filter hb
      omega
    have haccb : ∀ a ∈ qmmmAtomsUpTo ir mtop n ++ (List.range mtop.natoms).filter
        (fun a => decide (mtop.groupType a = n)), mtop.groupType a < n + 1 := by
      intro a ha
      rcases List.mem_append.mp ha with h1 | h1
      · exact Nat.lt_succ_of_lt (ih.2 a h1)
      · have h2 : mtop.groupType a = n := by simpa using List.of_mem_filter h1
        omega
    have hunf : qmmmAtomsUpTo ir mtop (n + 1) =
        (if ir.QMMMscheme = Scheme.oniom then
          vsitePrune mtop.groupType mtop.vsites
            (qmmmAtomsUpTo ir mtop n ++ (List.range mtop.natoms).filter
              (fun a => decide (mtop.groupType a = n)))
        else qmmmAtomsUpTo ir mtop n ++ (List.range mtop.natoms).filter
          (fun a => decide (mtop.groupType a = n))) := rfl
    rw [hunf]
    by_cases hs : ir.QMMMscheme = Scheme.oniom
    · rw [if_pos hs]
      exact ⟨vsitePrune_nodup _ _ _ haccn,
        fun a ha => haccb a (vsitePrune_subset _ _ _ a ha)⟩
    · rw [if_neg hs]
      exact ⟨haccn, haccb⟩

theorem qmmmAtomIndices_nodup (ir : Inputrec) (mtop : Mtop) :
    (qmmmAtomIndices ir mtop).Nodup :=
  (qmmmAtomsUpTo_nodup ir mtop ir.ngQM).1

theorem init_QMMMrec_ok (cfg : BuildConfig) (cr : Commrec) (mtop : Mtop)
    (ir : Inputrec) (qr : QMMMrec)
    (h : init_QMMMrec cfg cr mtop ir = Except.ok qr) : qr = mkQMMMrec mtop ir := by
  rw [init_QMMMrec] at h
  split_ifs at h
  all_goals first
    | exact Except.noConfusion h
    | exact initBackendCheck_ok _ _ _ h

theorem mkQMMMrec_layers (mtop : Mtop) (ir : Inputrec) :
    ∀ q ∈ (mkQMMMrec mtop ir).qm, q.indexQM = qmmmAtomIndices ir mtop := by
  intro q hq
  have hqm : (mkQMMMrec mtop ir).qm =
      if ir.QMMMscheme = Scheme.oniom then
        (List.range ir.ngQM).map (fun i => init_QMrec i (qmmmAtomIndices ir mtop) mtop ir)
      else [init_QMrec 0 (qmmmAtomIndices ir mtop) mtop ir] := rfl
  rw [hqm] at hq
  by_cases hs : ir.QMMMscheme = Scheme.oniom
  · rw [if_pos hs] at hq
    obtain ⟨i, _, rfl⟩ := List.mem_map.mp hq
    rfl
  · rw [if_neg hs] at hq
    rcases List.mem_cons.mp hq with h1 | h1
    · rw [h1]; rfl
    · cases h1

/-- Claim C3 (amended): the classifier output is duplicate-free, each
layer's stored index set equals it (hence is duplicate-free), and at every
Normal-scheme step the MM environment is disjoint from every layer's atoms,
provided the mdatoms QM flags mark the classifier's atoms; however every
layer stores the same full classifier list, so distinct layers' sets
coincide instead of being disjoint. -/
theorem qmmm_layer_index_invariants (cfg : BuildConfig) (cr : Commrec)
    (mtop : Mtop) (ir : Inputrec) (qr : QMMMrec)
    (h : init_QMMMrec cfg cr mtop ir = Except.ok qr) :
    (qmmmAtomIndices ir mtop).Nodup ∧
      (∀ q ∈ qr.qm, q.indexQM = qmmmAtomIndices ir mtop ∧ q.indexQM.Nodup) ∧
      (∀ (pbcDx : Nat → Nat → Ishift) (shiftVec : Ishift → Vec3) (x : Nat → Vec3)
          (nbl : NbList) (md : Mdatoms),
        qr.QMMMscheme = Scheme.normal →
        (∀ a ∈ qmmmAtomIndices ir mtop, md.bQM a = true) →
        ∀ lay ∈ qr.qm,
          ∀ a ∈ (update_QMMMrec pbcDx shiftVec x nbl md qr).mm.indexMM,
            a ∉ lay.indexQM) := by
  have hqr := init_QMMMrec_ok cfg cr mtop ir qr h
  subst hqr
  refine ⟨qmmmAtomIndices_nodup ir mtop, ?_, ?_⟩
  · intro q hq
    have h1 := mkQMMMrec_layers mtop ir q hq
    exact ⟨h1, h1 ▸ qmmmAtomIndices_nodup ir mtop⟩
  · intro pbcDx shiftVec x nbl md hnorm hflags lay hlay a ha hmem
    have h1 := mkQMMMrec_layers mtop ir lay hlay
    rw [update_QMMMrec_indexMM pbcDx shiftVec x nbl md _ hnorm] at ha
    obtain ⟨p, hp, rfl⟩ := List.mem_map.mp ha
    have h2 := (mmKeep_spec md p (mem_dedupFilter _ _ _ _ hp).2).1
    have h3 := hflags p.j (h1 ▸ hmem)
    rw [h2] at h3
    exact Bool.false_ne_true h3

/-- Claim C3, counterexample to the pairwise-disjointness conjunct as
stated: a two-group ONIOM setup succeeds and stores the identical full
index list `[0, 1]` in both layers, which are therefore not disjoint. -/
theorem qmmm_layers_not_disjoint :
    init_QMMMrec cfgAll (Commrec.mk 1) mtopTwoGroups irOniomTwo
        = Except.ok (mkQMMMrec mtopTwoGroups irOniomTwo) ∧
      (mkQMMMrec mtopTwoGroups irOniomTwo).qm.length = 2 ∧
      ((mkQMMMrec mtopTwoGroups irOniomTwo).qm.getD 0 default).indexQM = [0, 1] ∧
      ((mkQMMMrec mtopTwoGroups irOniomTwo).qm.getD 1 default).indexQM = [0, 1] ∧
      ¬ List.Disjoint ((mkQMMMrec mtopTwoGroups irOniomTwo).qm.getD 0 default).indexQM
          ((mkQMMMrec mtopTwoGroups irOniomTwo).qm.getD 1 default).indexQM := by
  refine ⟨rfl, rfl, by decide, by decide, ?_⟩
  intro hd
  exact hd
    (show (0 : Nat) ∈ ((mkQMMMrec mtopTwoGroups irOniomTwo).qm.getD 0 default).indexQM by
      decide)
    (show (0 : Nat) ∈ ((mkQMMMrec mtopTwoGroups irOniomTwo).qm.getD 1 default).indexQM by
      decide)

theorem qmmm_layer_index_invariants_witness :
    init_QMMMrec cfgAll (Commrec.mk 1) mtopTwoGroups irOniomTwo
        = Except.ok (mkQMMMrec mtopTwoGroups irOniomTwo) ∧
      ((qmmmAtomIndices irOniomTwo mtopTwoGroups).Nodup ∧
        (∀ q ∈ (mkQMMMrec mtopTwoGroups irOniomTwo).qm,
          q.indexQM = qmmmAtomIndices irOniomTwo mtopTwoGroups ∧ q.indexQM.Nodup) ∧
        (∀ (pbcDx : Nat → Nat → Ishift) (shiftVec : Ishift → Vec3) (x : Nat → Vec3)
            (nbl : NbList) (md : Mdatoms),
          (mkQMMMrec mtopTwoGroups irOniomTwo).QMMMscheme = Scheme.normal →
          (∀ a ∈ qmmmAtomIndices irOniomTwo mtopTwoGroups, md.bQM a = true) →
          ∀ lay ∈ (mkQMMMrec mtopTwoGroups irOniomTwo).qm,
            ∀ a ∈ (update_QMMMrec pbcDx shiftVec x nbl md
                (mkQMMMrec mtopTwoGroups irOniomTwo)).mm.indexMM,
              a ∉ lay.indexQM)) :=
  ⟨rfl, qmmm_layer_index_invariants cfgAll (Commrec.mk 1) mtopTwoGroups irOniomTwo
    (mkQMMMrec mtopTwoGroups irOniomTwo) rfl⟩

theorem removeQmmmAtomCharges_apply (l : List Nat) :
    ∀ (mtop : Mtop) (a : Nat),
      (removeQmmmAtomCharges mtop l).q a = (if a ∈ l then 0 else mtop.q a) ∧
      (removeQmmmAtomCharges mtop l).qB a = (if a ∈ l then 0 else mtop.qB a) := by
  induction l with
  | nil => intro mtop a; simp [removeQmmmAtomCharges]
  | cons b rest ih =>
    intro mtop a
    show (removeQmmmAtomCharges (Mtop.mk mtop.natoms mtop.atomnumber mtop.groupType
        mtop.vsites (Function.update mtop.q b 0) (Function.update mtop.qB b 0))
        rest).q a = _ ∧ (removeQmmmAtomCharges (Mtop.mk mtop.natoms mtop.atomnumber
        mtop.groupType mtop.vsites (Function.update mtop.q b 0)
        (Function.update mtop.qB b 0)) rest).qB a = _
    obtain ⟨h1, h2⟩ := ih (Mtop.mk mtop.natoms mtop.atomnumber mtop.groupType
      mtop.vsites (Function.update mtop.q b 0) (Function.update mtop.qB b 0)) a
    rw [h1, h2]
    by_cases hr : a ∈ rest
    · simp [hr]
    · by_cases hb : a = b
      · subst hb
        simp [hr, Function.update_same]
      · simp [hr, hb, Function.update_noteq hb]

/-- Modelled from the spec: the runner (outside src/) computes the
classifier's index list and calls `removeQmmmAtomCharges` exactly once at
simulation setup; per the spec the charge zeroing applies to the Normal
scheme.  The per-step routines (`update_QMMMrec`, `calculate_QMMM`) take no
topology at all, so no per-step mutation is possible. -/
def qmmmSetupTopology (ir : Inputrec) (mtop : Mtop) : Mtop :=
  if ir.QMMMscheme = Scheme.normal then
    removeQmmmAtomCharges mtop (qmmmAtomIndices ir mtop)
  else mtop

/-- Claim C9: after Normal-scheme setup both charge states of every QM atom
are exactly zero, and no other atom's charges change; the mutation is the
single setup-time call (the step routines take no topology). -/
theorem qmmmSetupTopology_zeroes (ir : Inputrec) (mtop : Mtop)
    (h : ir.QMMMscheme = Scheme.normal) :
    (∀ a ∈ qmmmAtomIndices ir mtop,
        (qmmmSetupTopology ir mtop).q a = 0 ∧ (qmmmSetupTopology ir mtop).qB a = 0) ∧
      ∀ a, a ∉ qmmmAtomIndices ir mtop →
        (qmmmSetupTopology ir mtop).q a = mtop.q a ∧
          (qmmmSetupTopology ir mtop).qB a = mtop.qB a := by
  have hset : qmmmSetupTopology ir mtop
      = removeQmmmAtomCharges mtop (qmmmAtomIndices ir mtop) := by
    rw [qmmmSetupTopology, if_pos h]
  rw [hset]
  constructor
  · intro a ha
    rcases removeQmmmAtomCharges_apply (qmmmAtomIndices ir mtop) mtop a with ⟨h1, h2⟩
    rw [h1, h2, if_pos ha, if_pos ha]
    exact ⟨rfl, rfl⟩
  · intro a ha
    rcases removeQmmmAtomCharges_apply (qmmmAtomIndices ir mtop) mtop a with ⟨h1, h2⟩
    rw [h1, h2, if_neg ha, if_neg ha]
    exact ⟨rfl, rfl⟩

/-- A one-group Normal-scheme input record. -/
def irNormalOne : Inputrec :=
  { cutoff_scheme := CutoffScheme.group, eI := Integrator.md,
    QMMMscheme := Scheme.normal, ngQM := 1, QMcharge := [0], QMmult := [1],
    QMmethod := [2], QMbasis := [0], scalefactor := 1 }

theorem qmmmSetupTopology_zeroes_witness :
    irNormalOne.QMMMscheme = Scheme.normal ∧
      ((∀ a ∈ qmmmAtomIndices irNormalOne mtopTwoGroups,
          (qmmmSetupTopology irNormalOne mtopTwoGroups).q a = 0 ∧
            (qmmmSetupTopology irNormalOne mtopTwoGroups).qB a = 0) ∧
        ∀ a, a ∉ qmmmAtomIndices irNormalOne mtopTwoGroups →
          (qmmmSetupTopology irNormalOne mtopTwoGroups).q a = mtopTwoGroups.q a ∧
            (qmmmSetupTopology irNormalOne mtopTwoGroups).qB a = mtopTwoGroups.qB a) :=
  ⟨rfl, qmmmSetupTopology_zeroes irNormalOne mtopTwoGroups rfl⟩
